import Mathlib

/-!
Verification development for the True 3D depth-illusion overlay
(`True 3D.cpp`).  The per-frame image-processing pipeline is shallowly
embedded: `float` arithmetic is modelled by exact rational arithmetic,
byte channels by natural numbers, pixel grids by total functions on integer
coordinates (cells outside the grid are irrelevant: the loops never touch
them), and the C library functions `sin`, `cos`, `exp` and `powf(·, 2.5f)`
by explicit function parameters, since they are external collaborators of
the core.  `static_cast<int>` is truncation toward zero and
`static_cast<BYTE>` is the same truncation of an already clamped
non-negative value.
-/

namespace True3D

/-- The `clamp` template of the source: `max(minVal, min(value, maxVal))`. -/
def clampQ (value minVal maxVal : ℚ) : ℚ := max minVal (min value maxVal)

/-- The same `clamp` template instantiated at `int`, as used on coordinates. -/
def clampI (value minVal maxVal : ℤ) : ℤ := max minVal (min value maxVal)

/-- C++ `static_cast<int>` applied to a float: truncation toward zero. -/
def qtrunc (x : ℚ) : ℤ := if 0 ≤ x then ⌊x⌋ else -⌊-x⌋

/-- C++ `static_cast<BYTE>` applied to a non-negative float value. -/
def toByte (x : ℚ) : ℕ := (qtrunc x).toNat

/-- C `fmod`: remainder of `x / y` carrying the sign of the dividend `x`. -/
def qfmod (x y : ℚ) : ℚ := x - (qtrunc (x / y) : ℚ) * y

/-- The configuration record `DepthIllusionConfig` (source lines 33–66),
with the fields the pipeline reads.  Byte-valued `alpha` is a natural
number; the two booleans keep their source names. -/
structure DepthIllusionConfig where
  depth_intensity : ℚ
  edge_boost : ℚ
  base_shift : ℚ
  perspective_strength : ℚ
  phase : ℚ
  phase_speed : ℚ
  alpha : ℕ
  vertical_shift : ℚ
  color_intensity : ℚ
  blur_radius : ℚ
  luminance_influence : ℚ
  texture_influence : ℚ
  motion_factor : ℚ
  focus_distance : ℚ
  focus_range : ℚ
  wave_amplitude : ℚ
  wave_frequency : ℚ
  temporal_smoothing : Bool
  history_frames : ℕ
  enable_iridescence : Bool
  iridescence_intensity : ℚ
  iridescence_speed : ℚ
  iridescence_scale : ℚ
  hue_range : ℚ
  hue_offset : ℚ
deriving DecidableEq

/-- The global `dcfg` instance with the in-class initializers of the source
(lines 35–65): these are the program's initial parameter values. -/
def dcfg : DepthIllusionConfig where
  depth_intensity := 250
  edge_boost := 10
  base_shift := 20
  perspective_strength := 9/2
  phase := 0
  phase_speed := 1/10
  alpha := 245
  vertical_shift := 1/5
  color_intensity := 3/10
  blur_radius := 5/2
  luminance_influence := 7/5
  texture_influence := 53/5
  motion_factor := 44/5
  focus_distance := 1/2
  focus_range := 3/5
  wave_amplitude := 1/10
  wave_frequency := 1/1000
  temporal_smoothing := true
  history_frames := 60
  enable_iridescence := true
  iridescence_intensity := 77/10
  iridescence_speed := 51/50
  iridescence_scale := 1/10
  hue_range := 1
  hue_offset := 0

/-- A BGRA pixel; the field order matches the byte layout of the source
(`offset + 0` = blue, `+1` = green, `+2` = red, `+3` = alpha). -/
structure Pix where
  b : ℕ
  g : ℕ
  r : ℕ
  a : ℕ
deriving DecidableEq

/-- A frame, indexed by pixel coordinates `(x, y)`. -/
def Frame : Type := ℤ → ℤ → Pix

/-- A depth map, indexed by pixel coordinates `(x, y)`. -/
def DepthMap : Type := ℤ → ℤ → ℚ

/-- In-bounds test of the source, `x ∈ [0, width)` and `y ∈ [0, height)`
(the source phrases the kernel guards positively and the blur guard as the
negated disjunction; both are this conjunction). -/
abbrev inFrame (width height x y : ℤ) : Prop :=
  0 ≤ x ∧ x < width ∧ 0 ≤ y ∧ y < height

/-- The interior of the estimator's scan: both loops of `Analyze` run
`for (y = 2; y < height - 2)` and `for (x = 2; x < width - 2)`. -/
abbrev interior (width height x y : ℤ) : Prop :=
  2 ≤ x ∧ x < width - 2 ∧ 2 ≤ y ∧ y < height - 2

/-- `HSVtoRGB` (source lines 74–95): standard six-sector conversion; the
sector index is `static_cast<int>` of `fmod(h, 1) * 6` and the `switch`
sends every index other than 0–4 (negative ones included) to the
`default` branch. -/
def HSVtoRGB (h s v : ℚ) : ℚ × ℚ × ℚ :=
  if s = 0 then (v, v, v)
  else
    let h6 := qfmod h 1 * 6
    let i := qtrunc h6
    let f := h6 - (i : ℚ)
    let p := v * (1 - s)
    let q := v * (1 - s * f)
    let t := v * (1 - s * (1 - f))
    if i = 0 then (v, t, p)
    else if i = 1 then (q, v, p)
    else if i = 2 then (p, v, t)
    else if i = 3 then (p, q, v)
    else if i = 4 then (t, p, v)
    else (v, p, q)

/-- `ApplyIridescence` (source lines 98–124): position-, depth- and
time-driven HSV tint blended over the incoming R, G, B bytes; each blended
channel is clamped to `[0, 255]` before the byte cast. -/
def ApplyIridescence (cfg : DepthIllusionConfig) (x y : ℤ) (depth time : ℚ)
    (r g b : ℕ) : ℕ × ℕ × ℕ :=
  let hue := qfmod (cfg.hue_offset + (x : ℚ) * cfg.iridescence_scale
      + (y : ℚ) * cfg.iridescence_scale * (7/10) + depth * (3/10)
      + time * cfg.iridescence_speed) 1 * cfg.hue_range
  let origR := (r : ℚ) / 255
  let origG := (g : ℚ) / 255
  let origB := (b : ℚ) / 255
  let iri := HSVtoRGB hue (9/10) (9/10)
  let blendFactor := depth * cfg.iridescence_intensity
  (toByte (clampQ ((origR * (1 - blendFactor) + iri.1 * blendFactor) * 255) 0 255),
   toByte (clampQ ((origG * (1 - blendFactor) + iri.2.1 * blendFactor) * 255) 0 255),
   toByte (clampQ ((origB * (1 - blendFactor) + iri.2.2 * blendFactor) * 255) 0 255))

/-- A clamped value truncated to a byte stays at or below the upper bound. -/
theorem toByte_clampQ_le (v : ℚ) : toByte (clampQ v 0 255) ≤ 255 := by
  have h0 : (0 : ℚ) ≤ clampQ v 0 255 := le_max_left _ _
  have h1 : clampQ v 0 255 ≤ 255 :=
    max_le (by norm_num) (min_le_right _ _)
  have hfl : ⌊clampQ v 0 255⌋ ≤ (255 : ℤ) := by
    have := Int.floor_mono h1
    simpa using this
  unfold toByte qtrunc
  rw [if_pos h0]
  omega

/-- C10: `ApplyIridescence` is total and always returns byte values in
`[0, 255]`, for every configuration (negative `hue_offset` included) and
every blend factor: each blended channel is clamped to `[0, 255]` before
the byte cast, and `HSVtoRGB` resolves every sector index. -/
theorem c10_iridescence_bytes_in_range (cfg : DepthIllusionConfig) (x y : ℤ)
    (depth time : ℚ) (r g b : ℕ) :
    (ApplyIridescence cfg x y depth time r g b).1 ≤ 255 ∧
    (ApplyIridescence cfg x y depth time r g b).2.1 ≤ 255 ∧
    (ApplyIridescence cfg x y depth time r g b).2.2 ≤ 255 :=
  ⟨toByte_clampQ_le _, toByte_clampQ_le _, toByte_clampQ_le _⟩

/-- C3 counterexample: the program's initial `depth_intensity` is 250.0,
not the 3.0 of the claim's table. -/
theorem c3_counterexample : dcfg.depth_intensity ≠ 3 := by decide

/-- C3 amended: the initial values of the configuration parameters as the
source declares them (lines 35–65). -/
theorem c3_defaults :
    dcfg.depth_intensity = 250 ∧ dcfg.edge_boost = 10 ∧ dcfg.base_shift = 20 ∧
    dcfg.perspective_strength = 9/2 ∧ dcfg.phase_speed = 1/10 ∧
    dcfg.alpha = 245 ∧ dcfg.vertical_shift = 1/5 ∧
    dcfg.color_intensity = 3/10 ∧ dcfg.blur_radius = 5/2 ∧
    dcfg.luminance_influence = 7/5 ∧ dcfg.texture_influence = 53/5 ∧
    dcfg.focus_distance = 1/2 ∧ dcfg.focus_range = 3/5 ∧
    dcfg.wave_amplitude = 1/10 ∧ dcfg.wave_frequency = 1/1000 ∧
    dcfg.history_frames = 60 ∧ dcfg.hue_range = 1 ∧ dcfg.hue_offset = 0 :=
  ⟨rfl, rfl, rfl, rfl, rfl, rfl, rfl, rfl, rfl, rfl, rfl, rfl, rfl, rfl,
   rfl, rfl, rfl, rfl⟩

/-- Offsets `(i, j)` of the fine 3×3 kernel minus its center, in the order
of the nested loops of `CalculateEdgeStrength` (outer `i` = x-offset,
inner `j` = y-offset, `(0, 0)` skipped). -/
def fineOffsets : List (ℤ × ℤ) :=
  [(-1, -1), (-1, 0), (-1, 1), (0, -1), (0, 1), (1, -1), (1, 0), (1, 1)]

/-- Offsets of the medium 5×5 kernel minus the inner 3×3, in loop order
(the source skips pairs with `|i| ≤ 1 && |j| ≤ 1`). -/
def mediumOffsets : List (ℤ × ℤ) :=
  [(-2, -2), (-2, -1), (-2, 0), (-2, 1), (-2, 2),
   (-1, -2), (-1, 2), (0, -2), (0, 2), (1, -2), (1, 2),
   (2, -2), (2, -1), (2, 0), (2, 1), (2, 2)]

/-- One edge kernel of `CalculateEdgeStrength`: over the given offsets, sum
the in-bounds weighted absolute channel differences against the center
pixel (`wr·|ΔR| + wg·|ΔG| + wb·|ΔB|`, accumulated by the source in that
order with three `+=`). -/
def kernelSum (pixels : Frame) (width height x y : ℤ)
    (offs : List (ℤ × ℤ)) (wr wg wb : ℚ) : ℚ :=
  (offs.map (fun ij =>
    if inFrame width height (x + ij.1) (y + ij.2) then
      wr * |((pixels x y).r : ℚ) - ((pixels (x + ij.1) (y + ij.2)).r : ℚ)| +
      wg * |((pixels x y).g : ℚ) - ((pixels (x + ij.1) (y + ij.2)).g : ℚ)| +
      wb * |((pixels x y).b : ℚ) - ((pixels (x + ij.1) (y + ij.2)).b : ℚ)|
    else 0)).sum

/-- `CalculateEdgeStrength` (source lines 210–247): the value written to
`textureMap[y][x]`.  `pw` stands for the C library call `powf(·, 2.5f)`. -/
def CalculateEdgeStrength (pw : ℚ → ℚ) (cfg : DepthIllusionConfig)
    (pixels : Frame) (width height x y : ℤ) : ℚ :=
  let edge1 := kernelSum pixels width height x y fineOffsets (9/10) 1 (8/10)
  let edge2 := kernelSum pixels width height x y mediumOffsets (7/10) (9/10) (6/10)
  let edge := (edge1 * (6/10) + edge2 * (4/10)) / 3000 * cfg.edge_boost
  clampQ (pw edge) 0 1

/-- The luminance extracted by the first pass of `Analyze` (lines 160–164):
Rec.601 weights on R, G, B, divided by 255. -/
def luminanceAt (pixels : Frame) (x y : ℤ) : ℚ :=
  ((299/1000) * ((pixels x y).r : ℚ) + (587/1000) * ((pixels x y).g : ℚ)
    + (114/1000) * ((pixels x y).b : ℚ)) / 255

/-- The focus plane depth adjustment of `Analyze` (lines 182–185).  The
division is by the configuration's `focus_range` exactly as stored: the
source applies no floor to it. -/
def focusAdjustment (cfg : DepthIllusionConfig) (normalizedDepth : ℚ) : ℚ :=
  1 - min (|normalizedDepth - cfg.focus_distance| / cfg.focus_range) 1

/-- `currentDepthMap[y][x]` as `Analyze` computes it before temporal
smoothing: zero-initialized, written only on the interior scan
(lines 151, 172–190). -/
def currentDepthAt (pw : ℚ → ℚ) (cfg : DepthIllusionConfig) (pixels : Frame)
    (width height x y : ℤ) : ℚ :=
  if interior width height x y then
    let depthFromTexture :=
      CalculateEdgeStrength pw cfg pixels width height x y * cfg.texture_influence
    let depthFromLuminance := (1 - luminanceAt pixels x y) * cfg.luminance_influence
    let perspectiveBias := (y : ℚ) / (height : ℚ) * (2/10)
    let normalizedDepth := depthFromTexture + depthFromLuminance + perspectiveBias
    clampQ (normalizedDepth * focusAdjustment cfg normalizedDepth * cfg.depth_intensity) 0 1
  else 0

/-- The history accumulation of `ApplyTemporalSmoothing` (lines 258–265):
`sum += pastFrame[y][x] * 1/(frame+1)` walking the deque front to back,
breaking once `frame > history_frames`. -/
def histSum (hf : ℕ) (x y : ℤ) : ℕ → List DepthMap → ℚ
  | _, [] => 0
  | frame, past :: rest =>
    if hf < frame then 0
    else past x y * (1 / ((frame : ℚ) + 1)) + histSum hf x y (frame + 1) rest

/-- The matching total-weight accumulation of `ApplyTemporalSmoothing`. -/
def histWeight (hf : ℕ) : ℕ → List DepthMap → ℚ
  | _, [] => 0
  | frame, _ :: rest =>
    if hf < frame then 0
    else (1 / ((frame : ℚ) + 1)) + histWeight hf (frame + 1) rest

/-- `ApplyTemporalSmoothing` (lines 249–270): every cell becomes the
weighted average of the current map (weight 1) and the history maps
(weights `1/(k+1)` for the k-th most recent, `k ≥ 1`). -/
def ApplyTemporalSmoothing (hf : ℕ) (history : List DepthMap)
    (currentMap : DepthMap) : DepthMap :=
  fun x y =>
    (currentMap x y + histSum hf x y 1 history) / (1 + histWeight hf 1 history)

/-- The estimator's persistent state: the `depthHistory` deque (front =
most recent) and the published `depthMap`. -/
structure GenState where
  depthHistory : List DepthMap
  depthMap : DepthMap

/-- The state of a freshly constructed `AdvancedDepthGenerator`. -/
def initialGenState : GenState :=
  { depthHistory := [], depthMap := fun _ _ => 0 }

/-- `AdvancedDepthGenerator::Analyze` (lines 150–205): build the current
depth map, smooth it against the history when enabled and the history is
non-empty, push the result to the front of the history, pop the back when
the length exceeds `history_frames`, and publish the result. -/
def Analyze (pw : ℚ → ℚ) (cfg : DepthIllusionConfig) (pixels : Frame)
    (width height : ℤ) (st : GenState) : GenState :=
  let currentMap : DepthMap := fun x y => currentDepthAt pw cfg pixels width height x y
  let smoothed : DepthMap :=
    if cfg.temporal_smoothing && !st.depthHistory.isEmpty then
      ApplyTemporalSmoothing cfg.history_frames st.depthHistory currentMap
    else currentMap
  let pushed := smoothed :: st.depthHistory
  let newHistory := if cfg.history_frames < pushed.length then pushed.dropLast else pushed
  { depthHistory := newHistory, depthMap := smoothed }

/-- Run `Analyze` over a sequence of captured frames, front of the list
first: the reachable states of the estimator are exactly the results of
this from `initialGenState`. -/
def runFrames (pw : ℚ → ℚ) (cfg : DepthIllusionConfig) (width height : ℤ) :
    List Frame → GenState → GenState
  | [], st => st
  | f :: rest, st => runFrames pw cfg width height rest (Analyze pw cfg f width height st)

/-- Pushing one map and popping the back when over the bound keeps a
bounded history bounded. -/
theorem push_trunc_length_le (hf : ℕ) (hist : List DepthMap) (m : DepthMap)
    (h : hist.length ≤ hf) :
    (if hf < (m :: hist).length then (m :: hist).dropLast else m :: hist).length ≤ hf := by
  split
  · rw [List.length_dropLast]
    simp only [List.length_cons]
    omega
  · next hc =>
    simp only [List.length_cons, not_lt] at hc
    simp only [List.length_cons]
    omega

/-- One `Analyze` step keeps the history within the bound. -/
theorem Analyze_history_le (pw : ℚ → ℚ) (cfg : DepthIllusionConfig)
    (pixels : Frame) (width height : ℤ) (st : GenState)
    (h : st.depthHistory.length ≤ cfg.history_frames) :
    (Analyze pw cfg pixels width height st).depthHistory.length ≤ cfg.history_frames := by
  unfold Analyze
  dsimp only
  exact push_trunc_length_le _ _ _ h

/-- C7: in every state the estimator can reach from its initial state, the
depth history FIFO respects `length ≤ history_frames` after each frame's
push-then-pop update. -/
theorem c7_history_bound (pw : ℚ → ℚ) (cfg : DepthIllusionConfig)
    (width height : ℤ) (frames : List Frame) :
    (runFrames pw cfg width height frames initialGenState).depthHistory.length
      ≤ cfg.history_frames := by
  have main : ∀ (fs : List Frame) (st : GenState),
      st.depthHistory.length ≤ cfg.history_frames →
      (runFrames pw cfg width height fs st).depthHistory.length ≤ cfg.history_frames := by
    intro fs
    induction fs with
    | nil => intro st h; exact h
    | cons f rest ih =>
      intro st h
      exact ih _ (Analyze_history_le pw cfg f width height st h)
  exact main frames initialGenState (by simp [initialGenState])

/-- C2: at every interior pixel, the depth the estimator publishes on a run
with empty history (the smoothing branch is skipped) is exactly
`clamp(d_raw · focus_adj · depth_intensity, 0, 1)` built from the texture
term `T = clamp(pw(edge_raw), 0, 1)` over the two kernels, the Rec.601
luminance term and the perspective bias, with
`focus_adj = 1 − min(|d_raw − focus_distance| / focus_range, 1)`. -/
theorem c2_depth_formula (pw : ℚ → ℚ) (cfg : DepthIllusionConfig)
    (pixels : Frame) (width height x y : ℤ) (dm : DepthMap)
    (hx1 : 2 ≤ x) (hx2 : x < width - 2) (hy1 : 2 ≤ y) (hy2 : y < height - 2) :
    (Analyze pw cfg pixels width height ⟨[], dm⟩).depthMap x y =
      (let T := clampQ (pw ((kernelSum pixels width height x y fineOffsets (9/10) 1 (8/10) * (6/10)
            + kernelSum pixels width height x y mediumOffsets (7/10) (9/10) (6/10) * (4/10))
            / 3000 * cfg.edge_boost)) 0 1
       let L := ((299/1000) * ((pixels x y).r : ℚ) + (587/1000) * ((pixels x y).g : ℚ)
            + (114/1000) * ((pixels x y).b : ℚ)) / 255
       let dRaw := T * cfg.texture_influence + (1 - L) * cfg.luminance_influence
            + (y : ℚ) / (height : ℚ) * (2/10)
       let focusAdj := 1 - min (|dRaw - cfg.focus_distance| / cfg.focus_range) 1
       clampQ (dRaw * focusAdj * cfg.depth_intensity) 0 1) := by
  have hint : interior width height x y := ⟨hx1, hx2, hy1, hy2⟩
  unfold Analyze
  simp only [List.isEmpty_nil, Bool.not_true, Bool.and_false, Bool.false_eq_true, if_false]
  unfold currentDepthAt
  rw [if_pos hint]
  rfl

/-- A constant mid-gray opaque frame, used by concrete instantiations. -/
def grayFrame : Frame := fun _ _ => ⟨128, 128, 128, 255⟩

/-- The all-zero depth map. -/
def zeroMap : DepthMap := fun _ _ => 0

/-- C2 witness: on a 5×5 mid-gray frame with the program's initial
configuration and empty history, the interior hypotheses hold at (2, 2)
and the formula evaluates (the flat frame has no edges; the luminance and
perspective cues alone saturate the clamp under `depth_intensity = 250`). -/
theorem c2_witness :
    (Analyze (fun q => q) dcfg grayFrame 5 5 ⟨[], zeroMap⟩).depthMap 2 2 = 1 := by
  rw [c2_depth_formula (fun q => q) dcfg grayFrame 5 5 2 2 zeroMap
    (by decide) (by decide) (by decide) (by decide)]
  norm_num [kernelSum, fineOffsets, mediumOffsets, grayFrame, inFrame, dcfg,
    clampQ, min_def, max_def, abs_of_nonneg]

/-- The lower clamp bound. -/
theorem clampQ_lower (v lo hi : ℚ) : lo ≤ clampQ v lo hi := le_max_left _ _

/-- The upper clamp bound, provided the bounds are ordered. -/
theorem clampQ_upper (v : ℚ) {lo hi : ℚ} (h : lo ≤ hi) : clampQ v lo hi ≤ hi :=
  max_le h (min_le_right _ _)

/-- The pre-smoothing depth value is always in [0, 1]. -/
theorem currentDepthAt_bounds (pw : ℚ → ℚ) (cfg : DepthIllusionConfig)
    (pixels : Frame) (width height x y : ℤ) :
    0 ≤ currentDepthAt pw cfg pixels width height x y ∧
    currentDepthAt pw cfg pixels width height x y ≤ 1 := by
  unfold currentDepthAt
  split
  · exact ⟨clampQ_lower _ _ _, clampQ_upper _ (by norm_num)⟩
  · norm_num

/-- Outside the interior scan the pre-smoothing map keeps its zero
initialization. -/
theorem currentDepthAt_not_interior (pw : ℚ → ℚ) (cfg : DepthIllusionConfig)
    (pixels : Frame) {width height x y : ℤ} (h : ¬ interior width height x y) :
    currentDepthAt pw cfg pixels width height x y = 0 := by
  unfold currentDepthAt
  exact if_neg h

/-- The history weight accumulator is non-negative. -/
theorem histWeight_nonneg (hf : ℕ) :
    ∀ (frame : ℕ) (hist : List DepthMap), 0 ≤ histWeight hf frame hist
  | _, [] => le_refl 0
  | frame, _ :: rest => by
    unfold histWeight
    split
    · exact le_refl 0
    · have h1 : (0 : ℚ) < (frame : ℚ) + 1 := by positivity
      have := histWeight_nonneg hf (frame + 1) rest
      positivity

/-- The history sum is trapped between 0 and the history weight whenever
every history cell is in [0, 1]. -/
theorem histSum_bounds (hf : ℕ) (x y : ℤ) :
    ∀ (frame : ℕ) (hist : List DepthMap),
      (∀ m ∈ hist, 0 ≤ m x y ∧ m x y ≤ 1) →
      0 ≤ histSum hf x y frame hist ∧
      histSum hf x y frame hist ≤ histWeight hf frame hist
  | _, [], _ => by unfold histSum histWeight; norm_num
  | frame, past :: rest, hh => by
    have hpast := hh past (List.mem_cons_self past rest)
    have hrest := histSum_bounds hf x y (frame + 1) rest
      (fun m hm => hh m (List.mem_cons_of_mem past hm))
    unfold histSum histWeight
    split
    · norm_num
    · have hw : (0 : ℚ) < 1 / ((frame : ℚ) + 1) := by positivity
      constructor
      · have : 0 ≤ past x y * (1 / ((frame : ℚ) + 1)) :=
          mul_nonneg hpast.1 (le_of_lt hw)
        exact add_nonneg this hrest.1
      · have : past x y * (1 / ((frame : ℚ) + 1)) ≤ 1 / ((frame : ℚ) + 1) := by
          nlinarith [hpast.2, hw]
        exact add_le_add this hrest.2

/-- The history sum vanishes at a cell where every history map is zero. -/
theorem histSum_zero (hf : ℕ) (x y : ℤ) :
    ∀ (frame : ℕ) (hist : List DepthMap),
      (∀ m ∈ hist, m x y = 0) → histSum hf x y frame hist = 0
  | _, [], _ => rfl
  | frame, past :: rest, hh => by
    have hpast := hh past (List.mem_cons_self past rest)
    have hrest := histSum_zero hf x y (frame + 1) rest
      (fun m hm => hh m (List.mem_cons_of_mem past hm))
    unfold histSum
    split
    · rfl
    · rw [hpast, hrest]
      ring

/-- Temporal smoothing of in-range values stays in range: the result is a
convex combination. -/
theorem smoothing_bounds (hf : ℕ) (hist : List DepthMap) (cur : DepthMap)
    (x y : ℤ) (hc : 0 ≤ cur x y ∧ cur x y ≤ 1)
    (hh : ∀ m ∈ hist, 0 ≤ m x y ∧ m x y ≤ 1) :
    0 ≤ ApplyTemporalSmoothing hf hist cur x y ∧
    ApplyTemporalSmoothing hf hist cur x y ≤ 1 := by
  have hsb := histSum_bounds hf x y 1 hist hh
  have hwn := histWeight_nonneg hf 1 hist
  have hden : (0 : ℚ) < 1 + histWeight hf 1 hist := by linarith
  unfold ApplyTemporalSmoothing
  constructor
  · exact div_nonneg (add_nonneg hc.1 hsb.1) (le_of_lt hden)
  · rw [div_le_one hden]
    linarith [hc.2, hsb.2]

/-- C6 amended: given a history whose cells are in [0, 1], every cell the
estimator publishes is in [0, 1]; and provided additionally that every
history map is zero outside the interior (as holds for every map the
estimator itself produces), the published map is zero on the 2-pixel
border. -/
theorem c6_depth_bounds_and_border (pw : ℚ → ℚ) (cfg : DepthIllusionConfig)
    (pixels : Frame) (width height : ℤ) (st : GenState)
    (hh : ∀ m ∈ st.depthHistory, ∀ x y : ℤ, 0 ≤ m x y ∧ m x y ≤ 1) :
    (∀ x y : ℤ, 0 ≤ (Analyze pw cfg pixels width height st).depthMap x y ∧
        (Analyze pw cfg pixels width height st).depthMap x y ≤ 1) ∧
    ((∀ m ∈ st.depthHistory, ∀ x y : ℤ, ¬ interior width height x y → m x y = 0) →
      ∀ x y : ℤ, ¬ interior width height x y →
        (Analyze pw cfg pixels width height st).depthMap x y = 0) := by
  constructor
  · intro x y
    unfold Analyze
    dsimp only
    split
    · exact smoothing_bounds cfg.history_frames st.depthHistory _ x y
        (currentDepthAt_bounds pw cfg pixels width height x y)
        (fun m hm => hh m hm x y)
    · exact currentDepthAt_bounds pw cfg pixels width height x y
  · intro hb x y hxy
    unfold Analyze
    dsimp only
    split
    · unfold ApplyTemporalSmoothing
      dsimp only
      rw [currentDepthAt_not_interior pw cfg pixels hxy,
        histSum_zero cfg.history_frames x y 1 st.depthHistory
          (fun m hm => hb m hm x y hxy)]
      norm_num
    · exact currentDepthAt_not_interior pw cfg pixels hxy

/-- The constant one-half depth map. -/
def halfMap : DepthMap := fun _ _ => 1/2

/-- C6 counterexample: a history map constant at 1/2 has all cells in
[0, 1], yet after temporal smoothing against it the published depth at the
border pixel (0, 0) is 1/6, not 0. -/
theorem c6_counterexample :
    (∀ x y : ℤ, 0 ≤ halfMap x y ∧ halfMap x y ≤ 1) ∧
    (Analyze (fun q => q) dcfg grayFrame 8 8 ⟨[halfMap], halfMap⟩).depthMap 0 0 ≠ 0 := by
  constructor
  · intro x y
    constructor <;> norm_num [halfMap]
  · norm_num [Analyze, ApplyTemporalSmoothing, histSum, histWeight,
      currentDepthAt, dcfg, interior, halfMap]

/-- C6 witness: with a zero history map (cells in [0, 1], zero outside the
interior) both amended conclusions hold concretely on an 8×8 frame. -/
theorem c6_witness :
    (0 ≤ (Analyze (fun q => q) dcfg grayFrame 8 8 ⟨[zeroMap], zeroMap⟩).depthMap 0 0 ∧
      (Analyze (fun q => q) dcfg grayFrame 8 8 ⟨[zeroMap], zeroMap⟩).depthMap 0 0 ≤ 1) ∧
    (Analyze (fun q => q) dcfg grayFrame 8 8 ⟨[zeroMap], zeroMap⟩).depthMap 3 0 = 0 := by
  have hh : ∀ m ∈ ([zeroMap] : List DepthMap), ∀ x y : ℤ, 0 ≤ m x y ∧ m x y ≤ 1 := by
    intro m hm x y
    simp only [List.mem_singleton] at hm
    subst hm
    exact ⟨le_refl 0, by norm_num [zeroMap]⟩
  have hb : ∀ m ∈ ([zeroMap] : List DepthMap), ∀ x y : ℤ,
      ¬ interior 8 8 x y → m x y = 0 := by
    intro m hm x y _
    simp only [List.mem_singleton] at hm
    subst hm
    rfl
  have h := c6_depth_bounds_and_border (fun q => q) dcfg grayFrame 8 8
    ⟨[zeroMap], zeroMap⟩ hh
  exact ⟨h.1 0 0, h.2 hb 3 0 (by decide)⟩

/-- The effect of the 'C' key (source line 488): shrink `focus_range` by a
factor 0.9 with no lower floor. -/
def pressC (cfg : DepthIllusionConfig) : DepthIllusionConfig :=
  { cfg with focus_range := cfg.focus_range * (9/10) }

/-- The configuration after n presses of 'C' from the initial one. -/
def pressCn : ℕ → DepthIllusionConfig
  | 0 => dcfg
  | n + 1 => pressC (pressCn n)

/-- `focus_range` after n 'C' presses: the geometric decay, with no floor. -/
theorem pressCn_focus_range : ∀ n : ℕ, (pressCn n).focus_range = 3/5 * (9/10)^n
  | 0 => by norm_num [pressCn, dcfg]
  | n + 1 => by
    show (pressC (pressCn n)).focus_range = _
    rw [pressC]
    rw [pressCn_focus_range n, pow_succ]
    ring

/-- The 'C' key leaves `focus_distance` untouched. -/
theorem pressCn_focus_distance : ∀ n : ℕ, (pressCn n).focus_distance = 1/2
  | 0 => by norm_num [pressCn, dcfg]
  | n + 1 => by
    show (pressC (pressCn n)).focus_distance = _
    rw [pressC]
    exact pressCn_focus_distance n

/-- C8 evidence: 83 presses of 'C' drive `focus_range` strictly below the
claimed floor ε = 1e-4 while staying positive, and the focus adjustment the
estimator then computes differs from what an ε-floored snapshot would give:
no snapshot-time clamp exists in the code. -/
theorem c8_no_snapshot_floor :
    0 < (pressCn 83).focus_range ∧ (pressCn 83).focus_range < 1/10000 ∧
    focusAdjustment (pressCn 83) (1/2 + 1/100000) ≠
      focusAdjustment
        { pressCn 83 with focus_range := max (pressCn 83).focus_range (1/10000) }
        (1/2 + 1/100000) := by
  have hfr := pressCn_focus_range 83
  have hfd := pressCn_focus_distance 83
  have hmax : max ((3:ℚ)/5 * (9/10)^83) (1/10000) = 1/10000 := by
    rw [max_eq_right]
    norm_num
  refine ⟨?_, ?_, ?_⟩
  · rw [hfr]; positivity
  · rw [hfr]; norm_num
  · unfold focusAdjustment
    dsimp only
    rw [hfr, hfd, hmax]
    norm_num [min_def, abs_of_nonneg]

/-- The integers from `lo` to `hi` inclusive, in order: the index range of
a C `for` loop. -/
def rangeZ (lo hi : ℤ) : List ℤ :=
  (List.range (hi - lo + 1).toNat).map (fun (k : ℕ) => lo + (k : ℤ))

/-- The offsets `(i, j)` visited by the blur kernel loops (outer `j`,
inner `i`, both from `-r` to `r`). -/
def blurOffsets (r : ℤ) : List (ℤ × ℤ) :=
  (rangeZ (-r) r).flatMap (fun j => (rangeZ (-r) r).map (fun i => (i, j)))

/-- The Gaussian-like weight of `ApplyDepthBlur` (line 311):
`exp(-(i*i + j*j) / (2.0f * r * r))`, with `ex` standing for the C library
`exp`. -/
def blurWeight (ex : ℚ → ℚ) (r : ℤ) (ij : ℤ × ℤ) : ℚ :=
  ex (((-(ij.1 * ij.1 + ij.2 * ij.2) : ℤ) : ℚ) / (2 * (r : ℚ) * (r : ℚ)))

/-- One iteration of the blur accumulation loops (lines 303–318): skip
out-of-image neighbors, otherwise accumulate the weighted R, G, B reads
from the snapshot and the weight. -/
def blurStep (ex : ℚ → ℚ) (tempBuffer : Frame) (width height x y r : ℤ)
    (acc : ℚ × ℚ × ℚ × ℚ) (ij : ℤ × ℤ) : ℚ × ℚ × ℚ × ℚ :=
  if inFrame width height (x + ij.1) (y + ij.2) then
    (acc.1 + ((tempBuffer (x + ij.1) (y + ij.2)).r : ℚ) * blurWeight ex r ij,
     acc.2.1 + ((tempBuffer (x + ij.1) (y + ij.2)).g : ℚ) * blurWeight ex r ij,
     acc.2.2.1 + ((tempBuffer (x + ij.1) (y + ij.2)).b : ℚ) * blurWeight ex r ij,
     acc.2.2.2 + blurWeight ex r ij)
  else acc

/-- `ApplyDepthBlur` (source lines 287–327).  The source copies the frame
into `tempBuffer` before the loop and reads only the copy, so the output
is pointwise in the input frame: radius `trunc(depth · blur_radius)`,
skip when 0, cap at 3, normalized weighted sums into R, G, B, alpha
untouched. -/
def ApplyDepthBlur (ex : ℚ → ℚ) (cfg : DepthIllusionConfig) (depthMap : DepthMap)
    (width height : ℤ) (pixels : Frame) : Frame :=
  fun x y =>
    if interior width height x y then
      let blurRadius := qtrunc (depthMap x y * cfg.blur_radius)
      if blurRadius = 0 then pixels x y
      else
        let r := min blurRadius 3
        let acc := (blurOffsets r).foldl (blurStep ex pixels width height x y r) (0, 0, 0, 0)
        { b := toByte (acc.2.2.1 / acc.2.2.2), g := toByte (acc.2.1 / acc.2.2.2),
          r := toByte (acc.1 / acc.2.2.2), a := (pixels x y).a }
    else pixels x y

/-- The weighted channel sum of the blur kernel, out-of-image samples
excluded, as a map-sum over the visited offsets. -/
def weightedSum (ex : ℚ → ℚ) (pixels : Frame) (width height x y r : ℤ)
    (ch : Pix → ℕ) : ℚ :=
  ((blurOffsets r).map (fun ij =>
    if inFrame width height (x + ij.1) (y + ij.2) then
      ((ch (pixels (x + ij.1) (y + ij.2))) : ℚ) * blurWeight ex r ij
    else 0)).sum

/-- The weight normalizer of the blur kernel, out-of-image samples
excluded. -/
def weightTotal (ex : ℚ → ℚ) (width height x y r : ℤ) : ℚ :=
  ((blurOffsets r).map (fun ij =>
    if inFrame width height (x + ij.1) (y + ij.2) then blurWeight ex r ij
    else 0)).sum

/-- Truncation of zero. -/
theorem qtrunc_zero : qtrunc 0 = 0 := by
  unfold qtrunc
  rw [if_pos (le_refl 0)]
  exact Int.floor_zero

/-- The accumulation loop of the blur computes exactly the four map-sums. -/
theorem blur_foldl_sums (ex : ℚ → ℚ) (pixels : Frame) (width height x y r : ℤ) :
    ∀ (L : List (ℤ × ℤ)) (acc : ℚ × ℚ × ℚ × ℚ),
      L.foldl (blurStep ex pixels width height x y r) acc =
        (acc.1 + (L.map (fun ij =>
            if inFrame width height (x + ij.1) (y + ij.2) then
              ((pixels (x + ij.1) (y + ij.2)).r : ℚ) * blurWeight ex r ij
            else 0)).sum,
         acc.2.1 + (L.map (fun ij =>
            if inFrame width height (x + ij.1) (y + ij.2) then
              ((pixels (x + ij.1) (y + ij.2)).g : ℚ) * blurWeight ex r ij
            else 0)).sum,
         acc.2.2.1 + (L.map (fun ij =>
            if inFrame width height (x + ij.1) (y + ij.2) then
              ((pixels (x + ij.1) (y + ij.2)).b : ℚ) * blurWeight ex r ij
            else 0)).sum,
         acc.2.2.2 + (L.map (fun ij =>
            if inFrame width height (x + ij.1) (y + ij.2) then blurWeight ex r ij
            else 0)).sum)
  | [], acc => by simp
  | ij :: L, acc => by
    rw [List.foldl_cons, blur_foldl_sums ex pixels width height x y r L _]
    unfold blurStep
    by_cases h : inFrame width height (x + ij.1) (y + ij.2)
    · simp only [if_pos h, List.map_cons, List.sum_cons, Prod.mk.injEq]
      refine ⟨by ring, by ring, by ring, by ring⟩
    · simp only [if_neg h, List.map_cons, List.sum_cons, Prod.mk.injEq]
      refine ⟨by ring, by ring, by ring, by ring⟩

/-- C5: the blur stage preserves alpha at every pixel; a pixel whose
truncated radius is 0 is unchanged (hence the stage is the identity when
`blur_radius = 0` or the depth is 0); the truncation agrees with `floor`
for the non-negative inputs the pipeline produces; and at an interior
pixel with nonzero radius the R, G, B channels become the normalized
`exp`-weighted sums over the (2r+1)×(2r+1) snapshot neighborhood with
`r = min(trunc(depth · blur_radius), 3)`, out-of-image samples excluded
from numerator and denominator. -/
theorem c5_blur_spec (ex : ℚ → ℚ) (cfg : DepthIllusionConfig)
    (depthMap : DepthMap) (width height : ℤ) (pixels : Frame) (x y : ℤ) :
    ((ApplyDepthBlur ex cfg depthMap width height pixels x y).a = (pixels x y).a)
    ∧ (qtrunc (depthMap x y * cfg.blur_radius) = 0 →
        ApplyDepthBlur ex cfg depthMap width height pixels x y = pixels x y)
    ∧ (cfg.blur_radius = 0 →
        ApplyDepthBlur ex cfg depthMap width height pixels x y = pixels x y)
    ∧ (depthMap x y = 0 →
        ApplyDepthBlur ex cfg depthMap width height pixels x y = pixels x y)
    ∧ (0 ≤ depthMap x y → 0 ≤ cfg.blur_radius →
        qtrunc (depthMap x y * cfg.blur_radius) = ⌊depthMap x y * cfg.blur_radius⌋)
    ∧ (interior width height x y → qtrunc (depthMap x y * cfg.blur_radius) ≠ 0 →
        ApplyDepthBlur ex cfg depthMap width height pixels x y =
          { b := toByte (weightedSum ex pixels width height x y
                    (min (qtrunc (depthMap x y * cfg.blur_radius)) 3) Pix.b
                  / weightTotal ex width height x y
                    (min (qtrunc (depthMap x y * cfg.blur_radius)) 3)),
            g := toByte (weightedSum ex pixels width height x y
                    (min (qtrunc (depthMap x y * cfg.blur_radius)) 3) Pix.g
                  / weightTotal ex width height x y
                    (min (qtrunc (depthMap x y * cfg.blur_radius)) 3)),
            r := toByte (weightedSum ex pixels width height x y
                    (min (qtrunc (depthMap x y * cfg.blur_radius)) 3) Pix.r
                  / weightTotal ex width height x y
                    (min (qtrunc (depthMap x y * cfg.blur_radius)) 3)),
            a := (pixels x y).a }) := by
  have hunch : qtrunc (depthMap x y * cfg.blur_radius) = 0 →
      ApplyDepthBlur ex cfg depthMap width height pixels x y = pixels x y := by
    intro h
    simp [ApplyDepthBlur, h]
  refine ⟨?_,
    hunch,
    fun h => hunch (by rw [h, mul_zero]; exact qtrunc_zero),
    fun h => hunch (by rw [h, zero_mul]; exact qtrunc_zero),
    fun h1 h2 => by unfold qtrunc; rw [if_pos (mul_nonneg h1 h2)],
    ?_⟩
  · unfold ApplyDepthBlur
    dsimp only
    split
    · split
      · rfl
      · rfl
    · rfl
  · intro hint hr0
    unfold ApplyDepthBlur
    dsimp only
    rw [if_pos hint, if_neg hr0,
      blur_foldl_sums ex pixels width height x y
        (min (qtrunc (depthMap x y * cfg.blur_radius)) 3) (blurOffsets _) (0, 0, 0, 0)]
    simp only [zero_add]
    rfl

/-- A constant fully-interior test frame. -/
def flatFrame : Frame := fun _ _ => ⟨10, 20, 30, 40⟩

/-- The constant-one depth map. -/
def oneMap : DepthMap := fun _ _ => 1

/-- The initial configuration with `blur_radius` set to 1. -/
def cfgBlurOne : DepthIllusionConfig := { dcfg with blur_radius := 1 }

/-- C5 witness: at the interior pixel (3, 3) of an 8×8 constant frame with
depth 1 and `blur_radius` 1, the radius hypotheses hold and the blur
output is the normalized weighted-sum pixel the theorem names. -/
theorem c5_witness :
    ApplyDepthBlur (fun _ => 1) cfgBlurOne oneMap 8 8 flatFrame 3 3 =
      { b := toByte (weightedSum (fun _ => 1) flatFrame 8 8 3 3
                (min (qtrunc (oneMap 3 3 * cfgBlurOne.blur_radius)) 3) Pix.b
              / weightTotal (fun _ => 1) 8 8 3 3
                (min (qtrunc (oneMap 3 3 * cfgBlurOne.blur_radius)) 3)),
        g := toByte (weightedSum (fun _ => 1) flatFrame 8 8 3 3
                (min (qtrunc (oneMap 3 3 * cfgBlurOne.blur_radius)) 3) Pix.g
              / weightTotal (fun _ => 1) 8 8 3 3
                (min (qtrunc (oneMap 3 3 * cfgBlurOne.blur_radius)) 3)),
        r := toByte (weightedSum (fun _ => 1) flatFrame 8 8 3 3
                (min (qtrunc (oneMap 3 3 * cfgBlurOne.blur_radius)) 3) Pix.r
              / weightTotal (fun _ => 1) 8 8 3 3
                (min (qtrunc (oneMap 3 3 * cfgBlurOne.blur_radius)) 3)),
        a := (flatFrame 3 3).a } :=
  (c5_blur_spec (fun _ => 1) cfgBlurOne oneMap 8 8 flatFrame 3 3).2.2.2.2.2
    (by decide) (by norm_num [qtrunc, oneMap, cfgBlurOne, dcfg])

/-- The four sampling x/y values the warp stage computes for one output
pixel. -/
structure WarpCoords where
  srcX : ℤ
  srcY : ℤ
  redX : ℤ
  blueX : ℤ
deriving DecidableEq

/-- The coordinate computations of the warp loop of
`CreateEnhancedDepthOverlay` (source lines 355–391): displacement from
depth, perspective and wave, the adaptive focus effect, `static_cast<int>`
truncation, clamping into the frame, and the chromatic red/blue offsets.
`sn` and `cs` stand for the C library `sin` and `cos`. -/
def CoordsAt (sn cs : ℚ → ℚ) (cfg : DepthIllusionConfig) (depthMap : DepthMap)
    (width height x y : ℤ) : WarpCoords :=
  let depth := depthMap x y
  let perspective := 1 - (y : ℚ) / (height : ℚ) * cfg.perspective_strength
  let time := cfg.phase
  let wave := sn ((x : ℚ) * cfg.wave_frequency + time) *
      cs ((y : ℚ) * cfg.wave_frequency * (7/10) + time * (8/10)) *
      cfg.wave_amplitude * depth
  let shiftX := (cfg.base_shift * depth * perspective + wave) * sn cfg.phase
  let shiftY := (cfg.vertical_shift * depth * perspective + wave * (7/10)) * cs cfg.phase
  let focusEffect : ℚ := if cfg.focus_range < |depth - cfg.focus_distance| then 6/10 else 1
  let srcX := clampI (x + qtrunc (shiftX * focusEffect)) 0 (width - 1)
  let srcY := clampI (y + qtrunc (shiftY * focusEffect)) 0 (height - 1)
  let colorSep := depth * cfg.color_intensity
  let redX := clampI (srcX + qtrunc (colorSep * 3)) 0 (width - 1)
  let blueX := clampI (srcX - qtrunc (colorSep * 3)) 0 (width - 1)
  { srcX := srcX, srcY := srcY, redX := redX, blueX := blueX }

/-- The body of the warp loop for one pixel (source lines 355–408),
reading the chromatic samples from `buf`, applying `ApplyIridescence` when
enabled, and writing the depth-scaled alpha. -/
def WarpPixelAt (sn cs : ℚ → ℚ) (cfg : DepthIllusionConfig) (depthMap : DepthMap)
    (width height : ℤ) (buf : Frame) (x y : ℤ) : Pix :=
  let depth := depthMap x y
  let c := CoordsAt sn cs cfg depthMap width height x y
  let colorSep := depth * cfg.color_intensity
  let rV := toByte (clampQ (((buf c.redX c.srcY).r : ℚ) * (1 + colorSep * (5/10))) 0 255)
  let gV := (buf c.srcX c.srcY).g
  let bV := toByte (clampQ (((buf c.blueX c.srcY).b : ℚ) * (1 + colorSep * (3/10))) 0 255)
  let rgb := if cfg.enable_iridescence then
      ApplyIridescence cfg x y depth cfg.phase rV gV bV
    else (rV, gV, bV)
  let depthAlpha := (3/10) + depth * (7/10)
  { b := rgb.2.2, g := rgb.2.1, r := rgb.1, a := toByte ((cfg.alpha : ℚ) * depthAlpha) }

/-- The three pixels the warp loop reads while producing pixel (x, y):
`(redX, redY)`, `(srcX, srcY)` and `(blueX, blueY)`, with
`redY = blueY = srcY`. -/
def readsAt (sn cs : ℚ → ℚ) (cfg : DepthIllusionConfig) (depthMap : DepthMap)
    (width height x y : ℤ) : List (ℤ × ℤ) :=
  let c := CoordsAt sn cs cfg depthMap width height x y
  [(c.redX, c.srcY), (c.srcX, c.srcY), (c.blueX, c.srcY)]

/-- The pixel coordinates in the order the warp loop visits them: rows top
to bottom, each row left to right. -/
def scanCoords (width height : ℤ) : List (ℤ × ℤ) :=
  (rangeZ 0 (height - 1)).flatMap (fun y => (rangeZ 0 (width - 1)).map (fun x => (x, y)))

/-- The scan position of a pixel: its linear offset `y·width + x` in the
frame buffer. -/
def scanPos (width : ℤ) (p : ℤ × ℤ) : ℤ := p.2 * width + p.1

/-- Store a pixel at (x, y) of a frame. -/
def writePix (f : Frame) (x y : ℤ) (p : Pix) : Frame :=
  fun u v => if u = x ∧ v = y then p else f u v

/-- One iteration of the warp loop: compute the pixel from the current
buffer contents and store it back into the same buffer. -/
def warpStep (sn cs : ℚ → ℚ) (cfg : DepthIllusionConfig) (depthMap : DepthMap)
    (width height : ℤ) (buf : Frame) (p : ℤ × ℤ) : Frame :=
  writePix buf p.1 p.2 (WarpPixelAt sn cs cfg depthMap width height buf p.1 p.2)

/-- The warp loop as the source executes it: in place, each pixel's reads
observing all writes made earlier in the scan (there is no snapshot of the
blurred frame). -/
def warpScanInPlace (sn cs : ℚ → ℚ) (cfg : DepthIllusionConfig)
    (depthMap : DepthMap) (width height : ℤ) (pixels : Frame) : Frame :=
  (scanCoords width height).foldl (warpStep sn cs cfg depthMap width height) pixels

/-- The snapshot-read reference the claim describes: every pixel computed
from the unmodified input frame, written to a separate output. -/
def warpSnapshotRef (sn cs : ℚ → ℚ) (cfg : DepthIllusionConfig)
    (depthMap : DepthMap) (width height : ℤ) (pixels : Frame) : Frame :=
  fun x y =>
    if inFrame width height x y then
      WarpPixelAt sn cs cfg depthMap width height pixels x y
    else pixels x y

/-- Degree-7 Taylor polynomial of sine: a concrete computable stand-in for
the C runtime `sin`, used only to instantiate the trig oracle parameter of
witnesses and counterexamples (their evaluations depend on its value only
at 0, where it is exact). -/
def sinQ (x : ℚ) : ℚ := x - x^3/6 + x^5/120 - x^7/5040

/-- Degree-6 Taylor polynomial of cosine, the matching `cos` stand-in. -/
def cosQ (x : ℚ) : ℚ := 1 - x^2/2 + x^4/24 - x^6/720

/-- C4 amended: the warp sampling coordinates use `static_cast<int>`
truncation toward zero (`qtrunc`), not rounding to nearest:
`srcX = clamp(x + trunc(shiftX·focusEffect), 0, W−1)`,
`srcY = clamp(y + trunc(shiftY·focusEffect), 0, H−1)`,
`redX = clamp(srcX + trunc(3·colorSep), 0, W−1)` and
`blueX = clamp(srcX − trunc(3·colorSep), 0, W−1)` with
`colorSep = depth · color_intensity`. -/
theorem c4_coords_trunc (sn cs : ℚ → ℚ) (cfg : DepthIllusionConfig)
    (depthMap : DepthMap) (width height x y : ℤ) :
    (CoordsAt sn cs cfg depthMap width height x y).srcX =
      clampI (x + qtrunc ((cfg.base_shift * depthMap x y *
          (1 - (y : ℚ) / (height : ℚ) * cfg.perspective_strength) +
          sn ((x : ℚ) * cfg.wave_frequency + cfg.phase) *
            cs ((y : ℚ) * cfg.wave_frequency * (7/10) + cfg.phase * (8/10)) *
            cfg.wave_amplitude * depthMap x y) * sn cfg.phase *
        (if cfg.focus_range < |depthMap x y - cfg.focus_distance| then 6/10 else 1)))
        0 (width - 1) ∧
    (CoordsAt sn cs cfg depthMap width height x y).srcY =
      clampI (y + qtrunc ((cfg.vertical_shift * depthMap x y *
          (1 - (y : ℚ) / (height : ℚ) * cfg.perspective_strength) +
          sn ((x : ℚ) * cfg.wave_frequency + cfg.phase) *
            cs ((y : ℚ) * cfg.wave_frequency * (7/10) + cfg.phase * (8/10)) *
            cfg.wave_amplitude * depthMap x y * (7/10)) * cs cfg.phase *
        (if cfg.focus_range < |depthMap x y - cfg.focus_distance| then 6/10 else 1)))
        0 (height - 1) ∧
    (CoordsAt sn cs cfg depthMap width height x y).redX =
      clampI ((CoordsAt sn cs cfg depthMap width height x y).srcX
        + qtrunc (depthMap x y * cfg.color_intensity * 3)) 0 (width - 1) ∧
    (CoordsAt sn cs cfg depthMap width height x y).blueX =
      clampI ((CoordsAt sn cs cfg depthMap width height x y).srcX
        - qtrunc (depthMap x y * cfg.color_intensity * 3)) 0 (width - 1) :=
  ⟨rfl, rfl, rfl, rfl⟩

/-- The configuration driving the C4 counterexample: no animation motion
(`phase = 0`, zero wave and vertical shift) and unit color separation. -/
def c4cfg : DepthIllusionConfig :=
  { dcfg with phase := 0, wave_amplitude := 0, vertical_shift := 0, color_intensity := 1 }

/-- The constant 9/10 depth map. -/
def mapNineTenths : DepthMap := fun _ _ => 9/10

/-- C4 counterexample: with depth 9/10 and `color_intensity` 1 the source
computes `redX = srcX + trunc(2.7) = srcX + 2`, while the claim's
round-to-nearest formula gives `srcX + 3`. -/
theorem c4_counterexample :
    (CoordsAt sinQ cosQ c4cfg mapNineTenths 10 10 0 0).redX ≠
      clampI ((CoordsAt sinQ cosQ c4cfg mapNineTenths 10 10 0 0).srcX
        + round (mapNineTenths 0 0 * c4cfg.color_intensity * 3)) 0 (10 - 1) := by
  have h1 : (CoordsAt sinQ cosQ c4cfg mapNineTenths 10 10 0 0).srcX = 0 := by
    norm_num [CoordsAt, c4cfg, dcfg, mapNineTenths, sinQ, cosQ, qtrunc,
      clampI, min_def, max_def]
  have h2 : (CoordsAt sinQ cosQ c4cfg mapNineTenths 10 10 0 0).redX = 2 := by
    norm_num [CoordsAt, c4cfg, dcfg, mapNineTenths, sinQ, cosQ, qtrunc,
      clampI, min_def, max_def]
  rw [h1, h2]
  norm_num [mapNineTenths, c4cfg, dcfg, round_eq, clampI, min_def, max_def]

/-- C9 amended: the output alpha is `⌊alpha · (0.3 + 0.7·depth)⌋` (the
`static_cast<BYTE>` truncation, not round-to-nearest); for otherwise
identical pixels it is non-decreasing in depth, and with depth in [0, 1]
and `alpha ≤ 255` it never exceeds 255. -/
theorem c9_alpha_trunc_monotone (sn cs : ℚ → ℚ) (cfg : DepthIllusionConfig)
    (dM dM' : DepthMap) (width height : ℤ) (buf : Frame) (x y : ℤ)
    (h0 : 0 ≤ dM x y) (h1 : dM x y ≤ dM' x y) (h2 : dM' x y ≤ 1)
    (ha : cfg.alpha ≤ 255) :
    (WarpPixelAt sn cs cfg dM width height buf x y).a =
      (⌊(cfg.alpha : ℚ) * ((3/10) + dM x y * (7/10))⌋).toNat ∧
    (WarpPixelAt sn cs cfg dM width height buf x y).a ≤
      (WarpPixelAt sn cs cfg dM' width height buf x y).a ∧
    (WarpPixelAt sn cs cfg dM' width height buf x y).a ≤ 255 := by
  have hv0 : (0 : ℚ) ≤ (cfg.alpha : ℚ) * ((3/10) + dM x y * (7/10)) :=
    mul_nonneg (Nat.cast_nonneg _)
      (add_nonneg (by norm_num) (mul_nonneg h0 (by norm_num)))
  have hv0' : (0 : ℚ) ≤ (cfg.alpha : ℚ) * ((3/10) + dM' x y * (7/10)) :=
    mul_nonneg (Nat.cast_nonneg _)
      (add_nonneg (by norm_num) (mul_nonneg (le_trans h0 h1) (by norm_num)))
  have heq : (WarpPixelAt sn cs cfg dM width height buf x y).a =
      toByte ((cfg.alpha : ℚ) * ((3/10) + dM x y * (7/10))) := rfl
  have heq' : (WarpPixelAt sn cs cfg dM' width height buf x y).a =
      toByte ((cfg.alpha : ℚ) * ((3/10) + dM' x y * (7/10))) := rfl
  have hfloor : toByte ((cfg.alpha : ℚ) * ((3/10) + dM x y * (7/10))) =
      (⌊(cfg.alpha : ℚ) * ((3/10) + dM x y * (7/10))⌋).toNat := by
    unfold toByte qtrunc
    rw [if_pos hv0]
  have hfloor' : toByte ((cfg.alpha : ℚ) * ((3/10) + dM' x y * (7/10))) =
      (⌊(cfg.alpha : ℚ) * ((3/10) + dM' x y * (7/10))⌋).toNat := by
    unfold toByte qtrunc
    rw [if_pos hv0']
  refine ⟨heq.trans hfloor, ?_, ?_⟩
  · rw [heq, heq', hfloor, hfloor']
    apply Int.toNat_le_toNat
    apply Int.floor_mono
    apply mul_le_mul_of_nonneg_left _ (Nat.cast_nonneg _)
    linarith
  · rw [heq', hfloor']
    have hle : (cfg.alpha : ℚ) * ((3/10) + dM' x y * (7/10)) ≤ 255 := by
      have hc : (cfg.alpha : ℚ) ≤ 255 := by exact_mod_cast ha
      nlinarith [Nat.cast_nonneg (α := ℚ) cfg.alpha]
    have hfl : ⌊(cfg.alpha : ℚ) * ((3/10) + dM' x y * (7/10))⌋ ≤ (255 : ℤ) := by
      have := Int.floor_mono hle
      simpa using this
    omega

/-- The configuration for the C9 counterexample: `alpha = 199`, so that
`alpha · 0.3 = 59.7` separates truncation (59) from rounding (60). -/
def cfgAlpha199 : DepthIllusionConfig :=
  { dcfg with alpha := 199, enable_iridescence := false, phase := 0 }

/-- C9 counterexample: at depth 0 the source writes alpha
`trunc(199 · 0.3) = 59`, while the claim's `round(alpha·(0.3+0.7·depth))`
gives 60. -/
theorem c9_counterexample :
    (WarpPixelAt sinQ cosQ cfgAlpha199 zeroMap 10 10 flatFrame 0 0).a ≠
      (round ((cfgAlpha199.alpha : ℚ) * ((3/10) + zeroMap 0 0 * (7/10)))).toNat := by
  have h1 : (WarpPixelAt sinQ cosQ cfgAlpha199 zeroMap 10 10 flatFrame 0 0).a =
      toByte ((cfgAlpha199.alpha : ℚ) * ((3/10) + zeroMap 0 0 * (7/10))) := rfl
  have h2 : toByte ((cfgAlpha199.alpha : ℚ) * ((3/10) + zeroMap 0 0 * (7/10))) = 59 := by
    norm_num [toByte, qtrunc, cfgAlpha199, dcfg, zeroMap]
    rfl
  have h3 : (round ((cfgAlpha199.alpha : ℚ) * ((3/10) + zeroMap 0 0 * (7/10)))).toNat = 60 := by
    norm_num [round_eq, cfgAlpha199, dcfg, zeroMap]
    rfl
  rw [h1, h2, h3]
  norm_num

/-- C9 witness: the amended statement instantiated at depth 0 versus
depth 1 with `alpha = 199` on a concrete frame. -/
theorem c9_witness :
    (WarpPixelAt sinQ cosQ cfgAlpha199 zeroMap 10 10 flatFrame 0 0).a =
      (⌊(cfgAlpha199.alpha : ℚ) * ((3/10) + zeroMap 0 0 * (7/10))⌋).toNat ∧
    (WarpPixelAt sinQ cosQ cfgAlpha199 zeroMap 10 10 flatFrame 0 0).a ≤
      (WarpPixelAt sinQ cosQ cfgAlpha199 oneMap 10 10 flatFrame 0 0).a ∧
    (WarpPixelAt sinQ cosQ cfgAlpha199 oneMap 10 10 flatFrame 0 0).a ≤ 255 :=
  c9_alpha_trunc_monotone sinQ cosQ cfgAlpha199 zeroMap oneMap 10 10 flatFrame 0 0
    (le_refl 0) (by norm_num [zeroMap, oneMap]) (le_refl 1) (by norm_num [cfgAlpha199, dcfg])

/-- Membership in a C-style inclusive integer loop range. -/
theorem mem_rangeZ {lo hi a : ℤ} : a ∈ rangeZ lo hi ↔ lo ≤ a ∧ a ≤ hi := by
  unfold rangeZ
  constructor
  · intro h
    obtain ⟨k, hk, hke⟩ := List.mem_map.1 h
    rw [List.mem_range] at hk
    omega
  · intro h
    refine List.mem_map.2 ⟨(a - lo).toNat, ?_, ?_⟩
    · rw [List.mem_range]
      omega
    · omega

/-- Membership in the scan order is exactly being inside the frame. -/
theorem mem_scanCoords {width height : ℤ} {p : ℤ × ℤ} :
    p ∈ scanCoords width height ↔
      0 ≤ p.1 ∧ p.1 ≤ width - 1 ∧ 0 ≤ p.2 ∧ p.2 ≤ height - 1 := by
  unfold scanCoords
  constructor
  · intro h
    obtain ⟨y, hy, hp⟩ := List.mem_flatMap.1 h
    obtain ⟨x, hx, hpe⟩ := List.mem_map.1 hp
    rw [mem_rangeZ] at hy hx
    subst hpe
    exact ⟨hx.1, hx.2, hy.1, hy.2⟩
  · intro h
    refine List.mem_flatMap.2 ⟨p.2, mem_rangeZ.2 ⟨h.2.2.1, h.2.2.2⟩, ?_⟩
    exact List.mem_map.2 ⟨p.1, mem_rangeZ.2 ⟨h.1, h.2.1⟩, rfl⟩

/-- A loop range is strictly increasing. -/
theorem rangeZ_pairwise (lo hi : ℤ) : (rangeZ lo hi).Pairwise (· < ·) := by
  unfold rangeZ
  rw [List.pairwise_map]
  exact (List.pairwise_lt_range _).imp (fun h => by omega)

/-- The scan visits pixels in strictly increasing buffer offset. -/
theorem scanCoords_pairwise (width height : ℤ) :
    (scanCoords width height).Pairwise
      (fun p q => scanPos width p < scanPos width q) := by
  unfold scanCoords
  rw [List.pairwise_flatMap]
  constructor
  · intro y _
    rw [List.pairwise_map]
    refine (rangeZ_pairwise 0 (width - 1)).imp ?_
    intro a b hab
    unfold scanPos
    dsimp only
    exact add_lt_add_left hab (y * width)
  · refine (rangeZ_pairwise 0 (height - 1)).imp ?_
    intro y1 y2 hlt q hq r hr
    obtain ⟨x1, hx1, rfl⟩ := List.mem_map.1 hq
    obtain ⟨x2, hx2, rfl⟩ := List.mem_map.1 hr
    rw [mem_rangeZ] at hx1 hx2
    unfold scanPos
    dsimp only
    have h1 : (y1 + 1) * width ≤ y2 * width :=
      mul_le_mul_of_nonneg_right (by omega) (by omega)
    have h2 : y1 * width + width ≤ y2 * width := by
      rw [add_mul, one_mul] at h1
      exact h1
    have h3 := hx1.2
    have h4 := hx2.1
    linarith

/-- Coordinate clamping lands inside the bounds. -/
theorem clampI_mem {v lo hi : ℤ} (h : lo ≤ hi) :
    lo ≤ clampI v lo hi ∧ clampI v lo hi ≤ hi :=
  ⟨le_max_left _ _, max_le h (min_le_right _ _)⟩

/-- All four warp sampling coordinates are clamped into the frame. -/
theorem CoordsAt_bounds (sn cs : ℚ → ℚ) (cfg : DepthIllusionConfig)
    (dM : DepthMap) {width height : ℤ} (hW : 0 < width) (hH : 0 < height)
    (x y : ℤ) :
    (0 ≤ (CoordsAt sn cs cfg dM width height x y).srcX ∧
      (CoordsAt sn cs cfg dM width height x y).srcX ≤ width - 1) ∧
    (0 ≤ (CoordsAt sn cs cfg dM width height x y).srcY ∧
      (CoordsAt sn cs cfg dM width height x y).srcY ≤ height - 1) ∧
    (0 ≤ (CoordsAt sn cs cfg dM width height x y).redX ∧
      (CoordsAt sn cs cfg dM width height x y).redX ≤ width - 1) ∧
    (0 ≤ (CoordsAt sn cs cfg dM width height x y).blueX ∧
      (CoordsAt sn cs cfg dM width height x y).blueX ≤ width - 1) :=
  ⟨clampI_mem (by omega), clampI_mem (by omega),
   clampI_mem (by omega), clampI_mem (by omega)⟩

/-- Every pixel the warp loop reads lies on the scan. -/
theorem readsAt_mem_scanCoords (sn cs : ℚ → ℚ) (cfg : DepthIllusionConfig)
    (dM : DepthMap) {width height : ℤ} (hW : 0 < width) (hH : 0 < height)
    (x y : ℤ) :
    ∀ c ∈ readsAt sn cs cfg dM width height x y, c ∈ scanCoords width height := by
  intro c hc
  have hb := CoordsAt_bounds sn cs cfg dM hW hH x y
  simp only [readsAt, List.mem_cons, List.not_mem_nil, or_false] at hc
  rcases hc with rfl | rfl | rfl
  · exact mem_scanCoords.2 ⟨hb.2.2.1.1, hb.2.2.1.2, hb.2.1.1, hb.2.1.2⟩
  · exact mem_scanCoords.2 ⟨hb.1.1, hb.1.2, hb.2.1.1, hb.2.1.2⟩
  · exact mem_scanCoords.2 ⟨hb.2.2.2.1, hb.2.2.2.2, hb.2.1.1, hb.2.1.2⟩

/-- The warp pixel computation reads the buffer only at its three sampling
coordinates. -/
theorem WarpPixelAt_congr (sn cs : ℚ → ℚ) (cfg : DepthIllusionConfig)
    (dM : DepthMap) (width height : ℤ) (buf f : Frame) (x y : ℤ)
    (h : ∀ c ∈ readsAt sn cs cfg dM width height x y, buf c.1 c.2 = f c.1 c.2) :
    WarpPixelAt sn cs cfg dM width height buf x y =
    WarpPixelAt sn cs cfg dM width height f x y := by
  have h1 := h ((CoordsAt sn cs cfg dM width height x y).redX,
    (CoordsAt sn cs cfg dM width height x y).srcY) (by simp [readsAt])
  have h2 := h ((CoordsAt sn cs cfg dM width height x y).srcX,
    (CoordsAt sn cs cfg dM width height x y).srcY) (by simp [readsAt])
  have h3 := h ((CoordsAt sn cs cfg dM width height x y).blueX,
    (CoordsAt sn cs cfg dM width height x y).srcY) (by simp [readsAt])
  dsimp only at h1 h2 h3
  unfold WarpPixelAt
  dsimp only
  rw [h1, h2, h3]

/-- A fold of warp steps leaves pixels it never writes untouched. -/
theorem warpFold_apply_not_mem (sn cs : ℚ → ℚ) (cfg : DepthIllusionConfig)
    (dM : DepthMap) (width height : ℤ) :
    ∀ (L : List (ℤ × ℤ)) (buf : Frame) (u v : ℤ),
      (∀ p ∈ L, p ≠ (u, v)) →
      (L.foldl (warpStep sn cs cfg dM width height) buf) u v = buf u v
  | [], _, _, _, _ => rfl
  | p :: L, buf, u, v, h => by
    rw [List.foldl_cons,
      warpFold_apply_not_mem sn cs cfg dM width height L _ u v
        (fun q hq => h q (List.mem_cons_of_mem p hq))]
    have hne : ¬ (u = p.1 ∧ v = p.2) := by
      intro hc
      exact h p (List.mem_cons_self p L) (Prod.ext_iff.2 ⟨hc.1.symm, hc.2.symm⟩)
    unfold warpStep writePix
    rw [if_neg hne]

/-- The in-place fold agrees with the snapshot-read pixel function on a
scan-ordered suffix whose reads never point at already-processed pixels. -/
theorem warpFold_agree (sn cs : ℚ → ℚ) (cfg : DepthIllusionConfig)
    (dM : DepthMap) (width height : ℤ) (f : Frame) :
    ∀ (L : List (ℤ × ℤ)) (buf : Frame),
      (∀ p ∈ L, buf p.1 p.2 = f p.1 p.2) →
      (∀ p ∈ L, ∀ c ∈ readsAt sn cs cfg dM width height p.1 p.2, c ∈ L) →
      L.Pairwise (fun p q => scanPos width p < scanPos width q) →
      (∀ p ∈ L, ∀ c ∈ readsAt sn cs cfg dM width height p.1 p.2,
        scanPos width p ≤ scanPos width c) →
      ∀ p ∈ L, (L.foldl (warpStep sn cs cfg dM width height) buf) p.1 p.2 =
        WarpPixelAt sn cs cfg dM width height f p.1 p.2
  | [], _, _, _, _, _ => by
    intro p hp
    cases hp
  | q :: L, buf, hb, hrd, hpw, hro => by
    have hpw' := List.pairwise_cons.1 hpw
    have hqeq : WarpPixelAt sn cs cfg dM width height buf q.1 q.2 =
        WarpPixelAt sn cs cfg dM width height f q.1 q.2 :=
      WarpPixelAt_congr sn cs cfg dM width height buf f q.1 q.2
        (fun c hc => hb c (hrd q (List.mem_cons_self q L) c hc))
    have hb' : ∀ r ∈ L,
        (warpStep sn cs cfg dM width height buf q) r.1 r.2 = f r.1 r.2 := by
      intro r hr
      have hqr : scanPos width q < scanPos width r := hpw'.1 r hr
      have hne : ¬ (r.1 = q.1 ∧ r.2 = q.2) := by
        intro hc
        unfold scanPos at hqr
        rw [hc.1, hc.2] at hqr
        exact lt_irrefl _ hqr
      unfold warpStep writePix
      rw [if_neg hne]
      exact hb r (List.mem_cons_of_mem q hr)
    have hrd' : ∀ r ∈ L, ∀ c ∈ readsAt sn cs cfg dM width height r.1 r.2,
        c ∈ L := by
      intro r hr c hc
      have hcL := hrd r (List.mem_cons_of_mem q hr) c hc
      rcases List.mem_cons.1 hcL with hcq | hcL'
      · exfalso
        have h1 := hro r (List.mem_cons_of_mem q hr) c hc
        have h2 := hpw'.1 r hr
        rw [hcq] at h1
        exact absurd h1 (not_le.2 h2)
      · exact hcL'
    have hro' : ∀ r ∈ L, ∀ c ∈ readsAt sn cs cfg dM width height r.1 r.2,
        scanPos width r ≤ scanPos width c :=
      fun r hr => hro r (List.mem_cons_of_mem q hr)
    intro p hp
    rw [List.foldl_cons]
    rcases List.mem_cons.1 hp with hpq | hpL
    · subst hpq
      rw [warpFold_apply_not_mem sn cs cfg dM width height L _ p.1 p.2 ?notmem]
      case notmem =>
        intro r hr hre
        have h2 := hpw'.1 r hr
        rw [hre] at h2
        exact lt_irrefl _ h2
      have hself : (warpStep sn cs cfg dM width height buf p) p.1 p.2 =
          WarpPixelAt sn cs cfg dM width height buf p.1 p.2 := by
        unfold warpStep writePix
        rw [if_pos ⟨rfl, rfl⟩]
      rw [hself]
      exact hqeq
    · exact warpFold_agree sn cs cfg dM width height f L _ hb' hrd' hpw'.2 hro' p hpL

/-- C1 amended: the warp loop runs in place with no snapshot, so the scan
only equals the snapshot-read reference under the extra hypothesis that no
pixel's sampling coordinates point strictly before it in scan order (then
every read still sees the pre-warp value). -/
theorem c1_inplace_eq_snapshot_of_forward_reads (sn cs : ℚ → ℚ)
    (cfg : DepthIllusionConfig) (dM : DepthMap) (width height : ℤ)
    (pixels : Frame) (hW : 0 < width) (hH : 0 < height)
    (hro : ∀ p ∈ scanCoords width height,
      ∀ c ∈ readsAt sn cs cfg dM width height p.1 p.2,
        scanPos width p ≤ scanPos width c) :
    ∀ p ∈ scanCoords width height,
      warpScanInPlace sn cs cfg dM width height pixels p.1 p.2 =
      warpSnapshotRef sn cs cfg dM width height pixels p.1 p.2 := by
  intro p hp
  have hsnap : warpSnapshotRef sn cs cfg dM width height pixels p.1 p.2 =
      WarpPixelAt sn cs cfg dM width height pixels p.1 p.2 := by
    unfold warpSnapshotRef
    rw [if_pos]
    have hb := mem_scanCoords.1 hp
    exact ⟨hb.1, by omega, hb.2.2.1, by omega⟩
  rw [hsnap]
  unfold warpScanInPlace
  exact warpFold_agree sn cs cfg dM width height pixels (scanCoords width height)
    pixels (fun _ _ => rfl)
    (fun q _ c hc => readsAt_mem_scanCoords sn cs cfg dM hW hH q.1 q.2 c hc)
    (scanCoords_pairwise width height) hro p hp

/-- C1 witness: on a 1×1 frame every sampling coordinate is clamped to the
single pixel, the forward-read hypothesis holds, and the in-place scan
equals the snapshot reference there. -/
theorem c1_witness :
    warpScanInPlace sinQ cosQ dcfg oneMap 1 1 flatFrame 0 0 =
      warpSnapshotRef sinQ cosQ dcfg oneMap 1 1 flatFrame 0 0 := by
  have hro : ∀ p ∈ scanCoords 1 1,
      ∀ c ∈ readsAt sinQ cosQ dcfg oneMap 1 1 p.1 p.2,
        scanPos 1 p ≤ scanPos 1 c := by
    intro p hp c hc
    have hc' := readsAt_mem_scanCoords sinQ cosQ dcfg oneMap
      (by norm_num) (by norm_num) p.1 p.2 c hc
    have hp' := mem_scanCoords.1 hp
    have hcb := mem_scanCoords.1 hc'
    unfold scanPos
    omega
  exact c1_inplace_eq_snapshot_of_forward_reads sinQ cosQ dcfg oneMap 1 1 flatFrame
    (by norm_num) (by norm_num) hro (0, 0) (mem_scanCoords.2 (by norm_num))

/-- The configuration driving the C1 counterexample: frozen animation
(`phase = 0`, zero wave and vertical shift), unit color separation and no
iridescence. -/
def c1cfg : DepthIllusionConfig :=
  { dcfg with phase := 0, wave_frequency := 0, wave_amplitude := 0, vertical_shift := 0, color_intensity := 1, enable_iridescence := false }

/-- A 2×1 frame whose left pixel carries blue 100. -/
def c1frame : Frame := fun u v => if u = 0 ∧ v = 0 then ⟨100, 0, 0, 0⟩ else ⟨0, 0, 0, 0⟩

/-- C1 counterexample: with depth 1 everywhere, the blue sample of pixel
(1, 0) lands on pixel (0, 0), which the in-place scan already overwrote
(blue 100 → 130); the scan therefore produces blue
`trunc(130·1.3) = 169` at (1, 0) while the snapshot-read reference
produces `trunc(100·1.3) = 130`. -/
theorem c1_counterexample :
    warpScanInPlace sinQ cosQ c1cfg oneMap 2 1 c1frame 1 0 ≠
      warpSnapshotRef sinQ cosQ c1cfg oneMap 2 1 c1frame 1 0 := by
  have hscan : scanCoords 2 1 = [(0, 0), (1, 0)] := rfl
  have hc00 : CoordsAt sinQ cosQ c1cfg oneMap 2 1 0 0 = ⟨0, 0, 1, 0⟩ := by
    norm_num [CoordsAt, c1cfg, dcfg, oneMap, sinQ, cosQ, qtrunc, clampI,
      min_def, max_def]
  have hc10 : CoordsAt sinQ cosQ c1cfg oneMap 2 1 1 0 = ⟨1, 0, 1, 0⟩ := by
    norm_num [CoordsAt, c1cfg, dcfg, oneMap, sinQ, cosQ, qtrunc, clampI,
      min_def, max_def]
  have h00 : WarpPixelAt sinQ cosQ c1cfg oneMap 2 1 c1frame 0 0 = ⟨130, 0, 0, 245⟩ := by
    unfold WarpPixelAt
    dsimp only
    rw [hc00]
    norm_num [c1cfg, dcfg, oneMap, c1frame, clampQ, toByte, qtrunc,
      min_def, max_def]
    exact ⟨rfl, rfl⟩
  have h10 : WarpPixelAt sinQ cosQ c1cfg oneMap 2 1
      (writePix c1frame 0 0 ⟨130, 0, 0, 245⟩) 1 0 = ⟨169, 0, 0, 245⟩ := by
    unfold WarpPixelAt
    dsimp only
    rw [hc10]
    norm_num [c1cfg, dcfg, oneMap, c1frame, writePix, clampQ, toByte,
      qtrunc, min_def, max_def]
    exact ⟨rfl, rfl⟩
  have h10s : WarpPixelAt sinQ cosQ c1cfg oneMap 2 1 c1frame 1 0 = ⟨130, 0, 0, 245⟩ := by
    unfold WarpPixelAt
    dsimp only
    rw [hc10]
    norm_num [c1cfg, dcfg, oneMap, c1frame, clampQ, toByte, qtrunc,
      min_def, max_def]
    exact ⟨rfl, rfl⟩
  have hL : warpScanInPlace sinQ cosQ c1cfg oneMap 2 1 c1frame 1 0 = ⟨169, 0, 0, 245⟩ := by
    unfold warpScanInPlace
    rw [hscan, List.foldl_cons, List.foldl_cons, List.foldl_nil]
    have hstep0 : warpStep sinQ cosQ c1cfg oneMap 2 1 c1frame (0, 0) =
        writePix c1frame 0 0 ⟨130, 0, 0, 245⟩ := by
      unfold warpStep
      dsimp only
      rw [h00]
    rw [hstep0]
    unfold warpStep
    dsimp only
    rw [h10]
    norm_num [writePix]
  have hR : warpSnapshotRef sinQ cosQ c1cfg oneMap 2 1 c1frame 1 0 = ⟨130, 0, 0, 245⟩ := by
    unfold warpSnapshotRef
    rw [if_pos (by decide : inFrame 2 1 1 0), h10s]
  rw [hL, hR]
  norm_num

end True3D
